import Mathlib

/-!
Verification of the call-graph construction core (`generate_call_graphs.py`)
and the signature/source extractor (`extract_functions.py`).

The graph side is a shallow embedding of the networkx `DiGraph` operations the
scripts use: `add_node` (which, as in networkx, *updates* the attribute record
of an already-present node) and `add_edge` (which inserts missing endpoint
nodes without attributes and stores at most one edge per ordered pair).
The oracle's output (a JSON object mapping caller FQN to callee FQN list) is
embedded as an association list `List (String × List String)`; a Python dict
iterates its unique keys in insertion order, which the list traversals mirror.
-/

namespace CodeInsight

/-- Display metadata attached to a graph node by `add_node(n, label=..,
title=.., group=..)` in `generate_call_graphs.py`. -/
structure NodeData where
  label : String
  title : String
  group : String
deriving DecidableEq, Repr

/-- A directed graph as the scripts use networkx's `DiGraph`: an insertion
ordered node list keyed by name (`none` data for nodes created implicitly by
`add_edge`), and an edge list holding at most one copy of each ordered pair. -/
structure Graph where
  nodes : List (String × Option NodeData)
  edges : List (String × String)
deriving DecidableEq, Repr

/-- `nx.DiGraph()`. -/
def Graph.empty : Graph := ⟨[], []⟩

/-- `G.has_node(n)`. -/
def Graph.hasNode (G : Graph) (n : String) : Bool :=
  G.nodes.any (fun p => p.1 == n)

/-- `G.add_node(n, label=.., title=.., group=..)`: networkx updates the
attribute record when the node already exists (the last insertion's
attributes win), otherwise appends a fresh node. -/
def Graph.addNode (G : Graph) (n : String) (d : NodeData) : Graph :=
  if G.hasNode n then
    { G with nodes := G.nodes.map (fun p => if p.1 == n then (p.1, some d) else p) }
  else
    { G with nodes := G.nodes ++ [(n, some d)] }

/-- networkx `add_edge` inserts missing endpoints as attribute-less nodes. -/
def Graph.ensureNode (G : Graph) (n : String) : Graph :=
  if G.hasNode n then G else { G with nodes := G.nodes ++ [(n, none)] }

/-- `G.add_edge(a, b)`: ensure both endpoints exist, then store the edge;
a `DiGraph` keeps at most one edge per ordered pair, so re-adding is a no-op. -/
def Graph.addEdge (G : Graph) (a b : String) : Graph :=
  let G := (G.ensureNode a).ensureNode b
  if (a, b) ∈ G.edges then G else { G with edges := G.edges ++ [(a, b)] }

/-- The stored attribute record of node `n`, if `n` exists and has one. -/
def Graph.getData (G : Graph) (n : String) : Option NodeData :=
  (G.nodes.lookup n).join

/-- `REPO_DIR` constant of `generate_call_graphs.py`. -/
def REPO_DIR : String := "/home/ubuntu/projects/head-pose-estimation-and-face-landmark"

/-- The string both filters compare against:
`REPO_DIR.replace('/home/ubuntu/', '')`. -/
def corpusRoot : String := REPO_DIR.replace "/home/ubuntu/" ""

/-- Pythons `str.split(sep)` for a one-character separator, on the character
list of a string: `''.split(sep) == ['']`, and a separator between every two
produced pieces (so `'a..b'.split('.') == ['a', '', 'b']`). -/
def splitChar (sep : Char) : List Char → List (List Char)
  | [] => [[]]
  | c :: rest =>
    if c == sep then [] :: splitChar sep rest
    else
      match splitChar sep rest with
      | [] => [[c]]
      | h :: t => (c :: h) :: t

/-- Pythons `s.startswith(pre)`. -/
def pyStartsWith (s pre : String) : Bool := pre.data.isPrefixOf s.data

/-- Pythons `s.split('.')`. -/
def pySplitDot (s : String) : List String := (splitChar '.' s.data).map (fun cs => ⟨cs⟩)

/-- Pythons `'.'.join(parts)` on character lists. -/
def joinDot : List (List Char) → List Char
  | [] => []
  | [p] => p
  | p :: rest => p ++ '.' :: joinDot rest

/-- Pythons `'.'.join(parts)`. -/
def joinDotS (parts : List String) : String := ⟨joinDot (parts.map String.data)⟩

/-- `func.split('.')[-1]` — the display name of an FQN.  (Python `split` never
returns an empty list, so the `[-1]` index is total.) -/
def lastSeg (s : String) : String := (pySplitDot s).getLastD ""

/-- `'.'.join(func.split('.')[:-1])` — everything before the last separator. -/
def dropLastSeg (s : String) : String := joinDotS (pySplitDot s).dropLast

/-- `len(s.split('.'))` — number of dot-separated path segments. -/
def segCount (s : String) : Nat := (pySplitDot s).length

/-- `extract_function_calls` (generate_call_graphs.py lines 68-109), with the
filter string `REPO_DIR.replace('/home/ubuntu/', '')` made an explicit
parameter `pfx` (in the script it is the fixed `corpusRoot`).  Each
`if not x.startswith(pfx): continue` guard becomes the positive branch of an
`if`. -/
def extract_function_calls (pfx : String) (data : List (String × List String)) : Graph :=
  data.foldl
    (fun G fc =>
      if pyStartsWith fc.1 pfx then
        let G := G.addNode fc.1 ⟨lastSeg fc.1, fc.1, dropLastSeg fc.1⟩
        fc.2.foldl
          (fun G call =>
            if pyStartsWith call pfx then
              let G := G.addNode call ⟨lastSeg call, call, dropLastSeg call⟩
              G.addEdge fc.1 call
            else G)
          G
      else G)
    Graph.empty

/- ### Basic lemmas about the graph operations -/

@[simp] theorem edges_addNode (G : Graph) (n : String) (d : NodeData) :
    (G.addNode n d).edges = G.edges := by
  unfold Graph.addNode; split <;> rfl

@[simp] theorem edges_ensureNode (G : Graph) (n : String) :
    (G.ensureNode n).edges = G.edges := by
  unfold Graph.ensureNode; split <;> rfl

theorem mem_edges_addEdge {G : Graph} {a b : String} {e : String × String} :
    e ∈ (G.addEdge a b).edges ↔ e ∈ G.edges ∨ e = (a, b) := by
  simp only [Graph.addEdge, edges_ensureNode]
  split_ifs with h
  · simp only [edges_ensureNode]
    constructor
    · exact fun hm => .inl hm
    · rintro (hm | rfl)
      · exact hm
      · exact h
  · simp [List.mem_append]

/-- Edges added by the inner fold of `extract_function_calls`. -/
theorem mem_edges_inner_fold (pfx func : String) (calls : List String)
    (G : Graph) (e : String × String) :
    e ∈ (calls.foldl
      (fun G call =>
        if pyStartsWith call pfx then
          ((G.addNode call ⟨lastSeg call, call, dropLastSeg call⟩).addEdge func call)
        else G) G).edges ↔
      e ∈ G.edges ∨ ∃ c ∈ calls, pyStartsWith c pfx ∧ e = (func, c) := by
  induction calls generalizing G with
  | nil => simp
  | cons c rest ih =>
    simp only [List.foldl_cons, ih, List.mem_cons]
    by_cases hc : pyStartsWith c pfx
    · simp only [hc, if_pos, mem_edges_addEdge, edges_addNode]
      constructor
      · rintro ((h | h) | h)
        · exact .inl h
        · exact .inr ⟨c, .inl rfl, hc, h⟩
        · obtain ⟨x, hx, hxs, hxe⟩ := h; exact .inr ⟨x, .inr hx, hxs, hxe⟩
      · rintro (h | ⟨x, (rfl | hx), hxs, hxe⟩)
        · exact .inl (.inl h)
        · exact .inl (.inr hxe)
        · exact .inr ⟨x, hx, hxs, hxe⟩
    · simp only [hc, if_neg, Bool.false_eq_true, not_false_iff, ite_false]
      constructor
      · rintro (h | ⟨x, hx, hxs, hxe⟩)
        · exact .inl h
        · exact .inr ⟨x, .inr hx, hxs, hxe⟩
      · rintro (h | ⟨x, (rfl | hx), hxs, hxe⟩)
        · exact .inl h
        · exact absurd hxs hc
        · exact .inr ⟨x, hx, hxs, hxe⟩

theorem mem_edges_outer_fold (pfx : String) (l : List (String × List String))
    (G : Graph) (e : String × String) :
    e ∈ (l.foldl
      (fun G fc =>
        if pyStartsWith fc.1 pfx then
          let G := G.addNode fc.1 ⟨lastSeg fc.1, fc.1, dropLastSeg fc.1⟩
          fc.2.foldl
            (fun G call =>
              if pyStartsWith call pfx then
                let G := G.addNode call ⟨lastSeg call, call, dropLastSeg call⟩
                G.addEdge fc.1 call
              else G)
            G
        else G) G).edges ↔
      e ∈ G.edges ∨
        ∃ fc ∈ l, pyStartsWith fc.1 pfx ∧ ∃ c ∈ fc.2, pyStartsWith c pfx ∧ e = (fc.1, c) := by
  induction l generalizing G with
  | nil => simp
  | cons fc rest ih =>
    simp only [List.foldl_cons, ih, List.mem_cons]
    by_cases hf : pyStartsWith fc.1 pfx
    · simp only [hf, if_pos]
      rw [mem_edges_inner_fold, edges_addNode]
      constructor
      · rintro ((h | ⟨c, hc, hcs, hce⟩) | ⟨x, hx, hxs, hc⟩)
        · exact .inl h
        · exact .inr ⟨fc, .inl rfl, hf, c, hc, hcs, hce⟩
        · exact .inr ⟨x, .inr hx, hxs, hc⟩
      · rintro (h | ⟨x, (rfl | hx), hxs, hc⟩)
        · exact .inl (.inl h)
        · exact .inl (.inr hc)
        · exact .inr ⟨x, hx, hxs, hc⟩
    · simp only [hf, Bool.false_eq_true, not_false_iff, if_neg]
      constructor
      · rintro (h | ⟨x, hx, hxs, hc⟩)
        · exact .inl h
        · exact .inr ⟨x, .inr hx, hxs, hc⟩
      · rintro (h | ⟨x, (rfl | hx), hxs, hc⟩)
        · exact .inl h
        · exact absurd hxs hf
        · exact .inr ⟨x, hx, hxs, hc⟩

/-- Characterization of the edges of the function-level graph: exactly the
oracle pairs whose two endpoints pass the prefix filter. -/
theorem mem_edges_extract_function_calls (pfx : String)
    (data : List (String × List String)) (e : String × String) :
    e ∈ (extract_function_calls pfx data).edges ↔
      ∃ fc ∈ data, pyStartsWith fc.1 pfx ∧
        ∃ c ∈ fc.2, pyStartsWith c pfx ∧ e = (fc.1, c) := by
  have h := mem_edges_outer_fold pfx data Graph.empty e
  simpa [extract_function_calls, Graph.empty] using h

/-- C1: every edge of the function-level graph produced by
`extract_function_calls` has both its caller endpoint and its callee endpoint
starting with the configured corpus-root prefix, for every oracle input
mapping: no edge with an endpoint failing the prefix test survives. -/
theorem C1_function_graph_edges_in_corpus (pfx : String)
    (data : List (String × List String)) (e : String × String)
    (he : e ∈ (extract_function_calls pfx data).edges) :
    pyStartsWith e.1 pfx ∧ pyStartsWith e.2 pfx := by
  rw [mem_edges_extract_function_calls] at he
  obtain ⟨fc, _, hf, c, _, hc, rfl⟩ := he
  exact ⟨hf, hc⟩

/-- Witness for C1 at a concrete oracle mapping: the retained edge
`(p.a.f, p.b.g)` has both endpoints starting with the prefix `p`; the mapping
also mentions the out-of-corpus callee `q.ext`, which produces no edge. -/
theorem C1_function_graph_edges_in_corpus_witness :
    (pyStartsWith "p.a.f" "p" ∧ pyStartsWith "p.b.g" "p") = (true ∧ true) := by
  have h := C1_function_graph_edges_in_corpus "p"
    [("p.a.f", ["p.b.g", "q.ext"]), ("q.other", ["p.a.f"])] ("p.a.f", "p.b.g")
    (by decide)
  simp [h.1, h.2]

/-! ### Class-level graph (`extract_class_calls`, lines 111-166)

The loop bodies of the two passes are named so the fold inductions below can
speak about them; they are verbatim transcriptions of the respective loop
iterations of the script. -/

/-- One iteration of the first pass of `extract_class_calls` (lines 127-142):
skip non-corpus keys, and for a key with at least three dot-separated segments
record `func_to_class[func] = '.'.join(parts[:-1])` (the association list
stands for the dict: keys are unique and the stored value is a function of
the key alone) and add the class node if not present, with display name
`parts[-2]` and group `'.'.join(parts[:-2])`. -/
def classPassOne (pfx : String) (acc : List (String × String) × Graph)
    (fc : String × List String) : List (String × String) × Graph :=
  if pyStartsWith fc.1 pfx then
    let parts := pySplitDot fc.1
    if 3 ≤ parts.length then
      let class_name := joinDotS parts.dropLast
      let func_to_class := acc.1 ++ [(fc.1, class_name)]
      let G :=
        if acc.2.hasNode class_name then acc.2
        else acc.2.addNode class_name
          ⟨parts.getD (parts.length - 2) "", class_name, joinDotS parts.dropLast.dropLast⟩
      (func_to_class, G)
    else acc
  else acc

/-- One iteration of the inner loop of the second pass (lines 152-164): skip
callees absent from `func_to_class`, skip same-class calls, otherwise add the
class-level edge. -/
def classPassTwoInner (ftc : List (String × String)) (source_class : String)
    (G : Graph) (call : String) : Graph :=
  match ftc.lookup call with
  | none => G
  | some target_class =>
    if source_class = target_class then G
    else G.addEdge source_class target_class

/-- One iteration of the outer loop of the second pass (lines 145-164): skip
callers absent from `func_to_class`. -/
def classPassTwo (ftc : List (String × String)) (G : Graph)
    (fc : String × List String) : Graph :=
  match ftc.lookup fc.1 with
  | none => G
  | some source_class => fc.2.foldl (classPassTwoInner ftc source_class) G

/-- `extract_class_calls` (generate_call_graphs.py lines 111-166). -/
def extract_class_calls (pfx : String) (data : List (String × List String)) : Graph :=
  let fp := data.foldl (classPassOne pfx) ([], Graph.empty)
  data.foldl (classPassTwo fp.1) fp.2

/-- The `func_to_class` association list the first pass produces. -/
def ftcList (pfx : String) (data : List (String × List String)) : List (String × String) :=
  data.filterMap (fun fc =>
    if pyStartsWith fc.1 pfx = true ∧ 3 ≤ (pySplitDot fc.1).length then
      some (fc.1, joinDotS (pySplitDot fc.1).dropLast)
    else none)

theorem first_pass_fst (pfx : String) (data : List (String × List String))
    (a : List (String × String)) (g : Graph) :
    (data.foldl (classPassOne pfx) (a, g)).1 = a ++ ftcList pfx data := by
  induction data generalizing a g with
  | nil => simp [ftcList]
  | cons fc rest ih =>
    rw [List.foldl_cons, ftcList, List.filterMap_cons]
    by_cases h1 : pyStartsWith fc.1 pfx = true
    · by_cases h2 : 3 ≤ (pySplitDot fc.1).length
      · rw [if_pos ⟨h1, h2⟩]
        have hstep : classPassOne pfx (a, g) fc =
            (a ++ [(fc.1, joinDotS (pySplitDot fc.1).dropLast)],
              (classPassOne pfx (a, g) fc).2) := by
          simp only [classPassOne, h1, if_true, h2]
        rw [hstep, ih]
        simp [ftcList, List.append_assoc]
      · rw [if_neg (by simp [h2])]
        have hstep : classPassOne pfx (a, g) fc = (a, g) := by
          simp only [classPassOne, h1, if_true, h2, if_false]
        rw [hstep, ih, ftcList]
    · rw [if_neg (by simp [h1])]
      have hstep : classPassOne pfx (a, g) fc = (a, g) := by
        simp only [classPassOne, h1, Bool.false_eq_true, if_false]
      rw [hstep, ih, ftcList]

theorem first_pass_snd_edges (pfx : String) (data : List (String × List String))
    (a : List (String × String)) (g : Graph) :
    (data.foldl (classPassOne pfx) (a, g)).2.edges = g.edges := by
  induction data generalizing a g with
  | nil => rfl
  | cons fc rest ih =>
    rw [List.foldl_cons]
    by_cases h1 : pyStartsWith fc.1 pfx = true
    · by_cases h2 : 3 ≤ (pySplitDot fc.1).length
      · have hstep : (classPassOne pfx (a, g) fc).2.edges = g.edges := by
          simp only [classPassOne, h1, if_true, h2]
          split <;> simp
        have hstep2 : classPassOne pfx (a, g) fc =
            ((classPassOne pfx (a, g) fc).1, (classPassOne pfx (a, g) fc).2) := rfl
        rw [hstep2, ih, hstep]
      · have hstep : classPassOne pfx (a, g) fc = (a, g) := by
          simp only [classPassOne, h1, if_true, h2, if_false]
        rw [hstep, ih]
    · have hstep : classPassOne pfx (a, g) fc = (a, g) := by
        simp only [classPassOne, h1, Bool.false_eq_true, if_false]
      rw [hstep, ih]

/-- Lookup in the `func_to_class` list: defined exactly for keys of the
mapping that pass the prefix filter and have at least three dot-separated
segments, and then yields the owner (all segments but the last). -/
theorem lookup_ftcList (pfx : String) (data : List (String × List String))
    (f : String) (v : String) :
    (ftcList pfx data).lookup f = some v ↔
      ((∃ fc ∈ data, fc.1 = f) ∧ pyStartsWith f pfx = true ∧ 3 ≤ segCount f ∧
        v = dropLastSeg f) := by
  induction data with
  | nil => simp [ftcList]
  | cons fc rest ih =>
    rw [ftcList, List.filterMap_cons]
    by_cases hp : pyStartsWith fc.1 pfx = true ∧ 3 ≤ (pySplitDot fc.1).length
    · rw [if_pos hp]
      by_cases hf : fc.1 = f
      · subst hf
        rw [List.lookup_cons_self]
        constructor
        · rintro h
          injection h with h
          exact ⟨⟨fc, List.mem_cons_self fc rest, rfl⟩, hp.1, hp.2, h.symm⟩
        · rintro ⟨_, _, _, rfl⟩
          rfl
      · have hbe : (f == fc.1) = false := beq_eq_false_iff_ne.2 fun h => hf h.symm
        rw [List.lookup_cons, hbe]
        rw [← ftcList, ih]
        constructor
        · rintro ⟨⟨x, hx, hxf⟩, h2, h3, h4⟩
          exact ⟨⟨x, List.mem_cons_of_mem fc hx, hxf⟩, h2, h3, h4⟩
        · rintro ⟨⟨x, hx, hxf⟩, h2, h3, h4⟩
          rcases List.mem_cons.1 hx with rfl | hx
          · exact absurd hxf hf
          · exact ⟨⟨x, hx, hxf⟩, h2, h3, h4⟩
    · rw [if_neg hp]
      rw [← ftcList, ih]
      constructor
      · rintro ⟨⟨x, hx, hxf⟩, h2, h3, h4⟩
        exact ⟨⟨x, List.mem_cons_of_mem fc hx, hxf⟩, h2, h3, h4⟩
      · rintro ⟨⟨x, hx, hxf⟩, h2, h3, h4⟩
        rcases List.mem_cons.1 hx with rfl | hx
        · subst hxf
          exact absurd ⟨h2, h3⟩ hp
        · exact ⟨⟨x, hx, hxf⟩, h2, h3, h4⟩

theorem mem_edges_class_inner (ftc : List (String × String)) (sc : String)
    (calls : List String) (G : Graph) (e : String × String) :
    e ∈ (calls.foldl (classPassTwoInner ftc sc) G).edges ↔
      e ∈ G.edges ∨
        ∃ c ∈ calls, ∃ tc, ftc.lookup c = some tc ∧ sc ≠ tc ∧ e = (sc, tc) := by
  induction calls generalizing G with
  | nil => simp
  | cons c rest ih =>
    rw [List.foldl_cons, ih]
    have hstep : ∀ G' : Graph, e ∈ (classPassTwoInner ftc sc G' c).edges ↔
        e ∈ G'.edges ∨ ∃ tc, ftc.lookup c = some tc ∧ sc ≠ tc ∧ e = (sc, tc) := by
      intro G'
      unfold classPassTwoInner
      cases h : ftc.lookup c with
      | none => simp [h]
      | some tc =>
        dsimp only
        by_cases hne : sc = tc
        · subst hne
          simp [h]
        · rw [if_neg hne, mem_edges_addEdge]
          simp only [h, Option.some.injEq]
          constructor
          · rintro (hm | rfl)
            · exact .inl hm
            · exact .inr ⟨tc, rfl, hne, rfl⟩
          · rintro (hm | ⟨tc', rfl, _, rfl⟩)
            · exact .inl hm
            · exact .inr rfl
    rw [hstep]
    constructor
    · rintro ((hm | htc) | ⟨x, hx, tc, hl, hne, he⟩)
      · exact .inl hm
      · obtain ⟨tc, hl, hne, he⟩ := htc
        exact .inr ⟨c, List.mem_cons_self c rest, tc, hl, hne, he⟩
      · exact .inr ⟨x, List.mem_cons_of_mem c hx, tc, hl, hne, he⟩
    · rintro (hm | ⟨x, hx, tc, hl, hne, he⟩)
      · exact .inl (.inl hm)
      · rcases List.mem_cons.1 hx with rfl | hx
        · exact .inl (.inr ⟨tc, hl, hne, he⟩)
        · exact .inr ⟨x, hx, tc, hl, hne, he⟩

theorem mem_edges_class_outer (ftc : List (String × String))
    (l : List (String × List String)) (G : Graph) (e : String × String) :
    e ∈ (l.foldl (classPassTwo ftc) G).edges ↔
      e ∈ G.edges ∨
        ∃ fc ∈ l, ∃ sc, ftc.lookup fc.1 = some sc ∧
          ∃ c ∈ fc.2, ∃ tc, ftc.lookup c = some tc ∧ sc ≠ tc ∧ e = (sc, tc) := by
  induction l generalizing G with
  | nil => simp
  | cons fc rest ih =>
    rw [List.foldl_cons, ih]
    have hstep : ∀ G' : Graph, e ∈ (classPassTwo ftc G' fc).edges ↔
        e ∈ G'.edges ∨ ∃ sc, ftc.lookup fc.1 = some sc ∧
          ∃ c ∈ fc.2, ∃ tc, ftc.lookup c = some tc ∧ sc ≠ tc ∧ e = (sc, tc) := by
      intro G'
      unfold classPassTwo
      cases h : ftc.lookup fc.1 with
      | none => simp [h]
      | some sc =>
        rw [mem_edges_class_inner]
        simp only [h, Option.some.injEq]
        constructor
        · rintro (hm | ⟨c, hc, tc, hl, hne, he⟩)
          · exact .inl hm
          · exact .inr ⟨sc, rfl, c, hc, tc, hl, hne, he⟩
        · rintro (hm | ⟨sc', rfl, c, hc, tc, hl, hne, he⟩)
          · exact .inl hm
          · exact .inr ⟨c, hc, tc, hl, hne, he⟩
    rw [hstep]
    constructor
    · rintro ((hm | h) | ⟨x, hx, h⟩)
      · exact .inl hm
      · exact .inr ⟨fc, List.mem_cons_self fc rest, h⟩
      · exact .inr ⟨x, List.mem_cons_of_mem fc hx, h⟩
    · rintro (hm | ⟨x, hx, h⟩)
      · exact .inl (.inl hm)
      · rcases List.mem_cons.1 hx with rfl | hx
        · exact .inl (.inr h)
        · exact .inr ⟨x, hx, h⟩

/-- Characterization of the class-level edges: an edge is added exactly when
both the caller and the callee are mapped by `func_to_class` and their owner
classes differ. -/
theorem mem_edges_extract_class_calls (pfx : String)
    (data : List (String × List String)) (e : String × String) :
    e ∈ (extract_class_calls pfx data).edges ↔
      ∃ fc ∈ data, ∃ sc, (ftcList pfx data).lookup fc.1 = some sc ∧
        ∃ c ∈ fc.2, ∃ tc, (ftcList pfx data).lookup c = some tc ∧
          sc ≠ tc ∧ e = (sc, tc) := by
  have h1 := first_pass_fst pfx data [] Graph.empty
  have h2 := first_pass_snd_edges pfx data [] Graph.empty
  unfold extract_class_calls
  simp only [mem_edges_class_outer, h1, h2, List.nil_append]
  simp [Graph.empty]

/-- C2: the class-level graph produced by `extract_class_calls` never
contains a self-loop: every edge joins two distinct classes, for every oracle
input mapping (same-class calls are skipped before the edge is added). -/
theorem C2_class_graph_no_self_loop (pfx : String)
    (data : List (String × List String)) (e : String × String)
    (he : e ∈ (extract_class_calls pfx data).edges) :
    e.1 ≠ e.2 := by
  rw [mem_edges_extract_class_calls] at he
  obtain ⟨fc, _, sc, _, c, _, tc, _, hne, rfl⟩ := he
  exact hne

/-- Witness for C2 at a concrete oracle mapping that does produce an edge:
`p.C.m` calls `p.D.n`, both methods of (distinct) in-corpus classes, so the
class edge `(p.C, p.D)` exists and its endpoints differ. -/
theorem C2_class_graph_no_self_loop_witness : "p.C" ≠ "p.D" := by
  have hmem : (("p.C", "p.D") : String × String) ∈
      (extract_class_calls "p" [("p.C.m", ["p.D.n"]), ("p.D.n", [])]).edges := by decide
  exact C2_class_graph_no_self_loop "p" [("p.C.m", ["p.D.n"]), ("p.D.n", [])]
    ("p.C", "p.D") hmem

/-- The class-level edge set as claim C3 words it: one edge
`(owner(caller), owner(callee))` for each function-graph edge whose two
endpoints both have at least 3 dot-separated path segments (owner = all
segments except the last) and whose owners differ. -/
def specClassEdge (pfx : String) (data : List (String × List String))
    (e : String × String) : Prop :=
  ∃ f c, (f, c) ∈ (extract_function_calls pfx data).edges ∧
    3 ≤ segCount f ∧ 3 ≤ segCount c ∧
    dropLastSeg f ≠ dropLastSeg c ∧ e = (dropLastSeg f, dropLastSeg c)

/-- The class-level edge set as the code actually computes it: as
`specClassEdge`, but additionally requiring the callee FQN to occur as a
caller key of the oracle mapping (`func_to_class` is built from
`call_graph_data.keys()` only, so a callee that is never itself a key is
skipped by the second pass). -/
def specClassEdgeKeyed (pfx : String) (data : List (String × List String))
    (e : String × String) : Prop :=
  ∃ f c, (f, c) ∈ (extract_function_calls pfx data).edges ∧
    3 ≤ segCount f ∧ 3 ≤ segCount c ∧
    (∃ fc ∈ data, fc.1 = c) ∧
    dropLastSeg f ≠ dropLastSeg c ∧ e = (dropLastSeg f, dropLastSeg c)

/-- Counterexample to C3 as stated: for the oracle mapping
`{p.C.m: [p.D.n]}` with corpus prefix `p`, the function graph has the edge
`(p.C.m, p.D.n)`, both endpoints have 3 segments and distinct owners, so the
claimed edge set contains `(p.C, p.D)` — but `extract_class_calls` produces
no such edge, because the callee `p.D.n` never occurs as a key of the mapping
and therefore is not in `func_to_class`. -/
theorem C3_counterexample :
    specClassEdge "p" [("p.C.m", ["p.D.n"])] ("p.C", "p.D") ∧
      ("p.C", "p.D") ∉ (extract_class_calls "p" [("p.C.m", ["p.D.n"])]).edges := by
  constructor
  · refine ⟨"p.C.m", "p.D.n", by decide, by decide, by decide, by decide, by decide⟩
  · decide

/-- C3 (amended): the class graph's edge set equals exactly
`{(owner(caller), owner(callee))}` over the function-graph edges whose two
endpoints have at least 3 dot-separated segments, whose callee also occurs as
a caller key of the oracle mapping, and whose owners differ. -/
theorem C3_class_edges_amended (pfx : String)
    (data : List (String × List String)) (e : String × String) :
    e ∈ (extract_class_calls pfx data).edges ↔ specClassEdgeKeyed pfx data e := by
  rw [mem_edges_extract_class_calls]
  unfold specClassEdgeKeyed
  constructor
  · rintro ⟨fc, hfc, sc, hsc, c, hc, tc, htc, hne, rfl⟩
    rw [lookup_ftcList] at hsc htc
    obtain ⟨⟨x, hx, hxf⟩, hsf, hs3, rfl⟩ := hsc
    obtain ⟨⟨y, hy, hyf⟩, hcf, hc3, rfl⟩ := htc
    refine ⟨fc.1, c, ?_, hs3, hc3, ⟨y, hy, hyf⟩, hne, rfl⟩
    rw [mem_edges_extract_function_calls]
    exact ⟨fc, hfc, hsf, c, hc, hcf, rfl⟩
  · rintro ⟨f, c, hedge, hf3, hc3, ⟨y, hy, hyf⟩, hne, rfl⟩
    rw [mem_edges_extract_function_calls] at hedge
    obtain ⟨fc, hfc, hsf, c', hc', hcf, heq⟩ := hedge
    injection heq with hfeq hceq
    subst hfeq
    subst hceq
    refine ⟨fc, hfc, dropLastSeg fc.1, ?_, c, hc', dropLastSeg c, ?_, hne, rfl⟩
    · rw [lookup_ftcList]
      exact ⟨⟨fc, hfc, rfl⟩, hsf, hf3, rfl⟩
    · rw [lookup_ftcList]
      exact ⟨⟨y, hy, hyf⟩, hcf, hc3, rfl⟩

/-! ### Graph merger (`analyze_python_file_structure`, lines 370-455)

Per file, the fallback analysis collects the short names of the `FunctionDef`
nodes of the file's syntax tree, adds one node per name to the combined
function graph — keyed by the *short* name, with `label=func`,
`title=f"{file_name}:{func}"`, `group=file_name` — and then adds an edge
`(parent_func, callee)` for each call expression whose callee id is in the
file's function list and whose node carries a `parent_func` attribute that is
also in the list (lines 418-424; the attribute check makes the pair list
empty for CPython syntax trees, but the insertion path is what defines the
merge semantics).  A per-file graph is therefore a file name, a function
list and a call-pair list, and merging a file into the combined graph
replays its insertions. -/

structure FileGraph where
  file_name : String
  functions : List String
  calls : List (String × String)
deriving DecidableEq, Repr

/-- The metadata stored for function `func` of file `fg`:
`label=func, title=f"{file_name}:{func}", group=file_name` (line 409). -/
def fileNodeData (fg : FileGraph) (func : String) : NodeData :=
  ⟨func, fg.file_name ++ ":" ++ func, fg.file_name⟩

/-- Folding one file into the combined graph (lines 407-409 and 418-424):
all of the file's function nodes, then its qualifying call edges. -/
def mergeFile (G : Graph) (fg : FileGraph) : Graph :=
  let G := fg.functions.foldl (fun G func => G.addNode func (fileNodeData fg func)) G
  fg.calls.foldl
    (fun G pr =>
      if pr.1 ∈ fg.functions ∧ pr.2 ∈ fg.functions then G.addEdge pr.1 pr.2 else G)
    G

/-- The combined graph over a list of per-file graphs (the loop of
lines 384-424 restricted to the combined function graph). -/
def mergeFiles (l : List FileGraph) : Graph := l.foldl mergeFile Graph.empty

theorem hasNode_addNode (G : Graph) (n : String) (d : NodeData) (m : String) :
    (G.addNode n d).hasNode m = true ↔ G.hasNode m = true ∨ m = n := by
  unfold Graph.addNode
  split_ifs with h
  · constructor
    · intro hm
      simp only [Graph.hasNode, List.any_map, List.any_eq_true] at hm
      obtain ⟨p, hp, hpm⟩ := hm
      simp only [Function.comp] at hpm
      split_ifs at hpm with hpn
      all_goals
        exact .inl (by simp only [Graph.hasNode, List.any_eq_true]; exact ⟨p, hp, by simpa using hpm⟩)
    · rintro (hm | rfl)
      · simp only [Graph.hasNode, List.any_map, List.any_eq_true] at hm ⊢
        obtain ⟨p, hp, hpm⟩ := hm
        refine ⟨p, hp, ?_⟩
        simp only [Function.comp]
        split_ifs with hpn <;> simpa using hpm
      · simp only [Graph.hasNode, List.any_map, List.any_eq_true]
        simp only [Graph.hasNode, List.any_eq_true] at h
        obtain ⟨p, hp, hpm⟩ := h
        refine ⟨p, hp, ?_⟩
        simp only [Function.comp]
        rw [if_pos hpm]
        simpa using (beq_iff_eq.1 hpm)
  · simp only [Graph.hasNode, List.any_append, List.any_cons, List.any_nil,
      Bool.or_eq_true, List.any_eq_true]
    constructor
    · rintro (hm | hm)
      · exact .inl hm
      · simp at hm
        exact .inr hm.symm
    · rintro (hm | rfl)
      · exact .inl hm
      · refine .inr ?_
        simp
theorem hasNode_ensureNode (G : Graph) (n : String) (m : String) :
    (G.ensureNode n).hasNode m = true ↔ G.hasNode m = true ∨ m = n := by
  unfold Graph.ensureNode
  split_ifs with h
  · constructor
    · exact fun hm => .inl hm
    · rintro (hm | rfl)
      · exact hm
      · exact h
  · simp only [Graph.hasNode, List.any_append, List.any_cons, List.any_nil,
      Bool.or_eq_true, List.any_eq_true]
    constructor
    · rintro (hm | hm)
      · exact .inl hm
      · simp at hm
        exact .inr hm.symm
    · rintro (hm | rfl)
      · exact .inl hm
      · refine .inr ?_
        simp

theorem hasNode_addEdge (G : Graph) (a b : String) (m : String) :
    (G.addEdge a b).hasNode m = true ↔ G.hasNode m = true ∨ m = a ∨ m = b := by
  simp only [Graph.addEdge]
  have hnodes : ∀ (H : Graph) (es : List (String × String)),
      ({ H with edges := es } : Graph).hasNode m = H.hasNode m := fun _ _ => rfl
  split_ifs with h
  · rw [hasNode_ensureNode, hasNode_ensureNode]
    tauto
  · rw [hnodes, hasNode_ensureNode, hasNode_ensureNode]
    tauto

theorem hasNode_node_fold (fg : FileGraph) (l : List String) (G : Graph) (m : String) :
    (l.foldl (fun G func => G.addNode func (fileNodeData fg func)) G).hasNode m = true ↔
      G.hasNode m = true ∨ m ∈ l := by
  induction l generalizing G with
  | nil => simp
  | cons x xs ih =>
    rw [List.foldl_cons, ih, hasNode_addNode, List.mem_cons]
    tauto

theorem edges_node_fold (fg : FileGraph) (l : List String) (G : Graph) :
    (l.foldl (fun G func => G.addNode func (fileNodeData fg func)) G).edges = G.edges := by
  induction l generalizing G with
  | nil => rfl
  | cons x xs ih => rw [List.foldl_cons, ih, edges_addNode]

theorem hasNode_edge_fold (fg : FileGraph) (calls : List (String × String))
    (G : Graph) (m : String) :
    (calls.foldl
      (fun G pr =>
        if pr.1 ∈ fg.functions ∧ pr.2 ∈ fg.functions then G.addEdge pr.1 pr.2 else G)
      G).hasNode m = true ↔
      G.hasNode m = true ∨
        ∃ pr ∈ calls, (pr.1 ∈ fg.functions ∧ pr.2 ∈ fg.functions) ∧
          (m = pr.1 ∨ m = pr.2) := by
  induction calls generalizing G with
  | nil => simp
  | cons pr rest ih =>
    rw [List.foldl_cons, ih]
    by_cases hg : pr.1 ∈ fg.functions ∧ pr.2 ∈ fg.functions
    · rw [if_pos hg, hasNode_addEdge]
      constructor
      · rintro ((hm | hm) | ⟨x, hx, hgx, hmx⟩)
        · exact .inl hm
        · exact .inr ⟨pr, List.mem_cons_self pr rest, hg, hm⟩
        · exact .inr ⟨x, List.mem_cons_of_mem pr hx, hgx, hmx⟩
      · rintro (hm | ⟨x, hx, hgx, hmx⟩)
        · exact .inl (.inl hm)
        · rcases List.mem_cons.1 hx with rfl | hx
          · exact .inl (.inr hmx)
          · exact .inr ⟨x, hx, hgx, hmx⟩
    · rw [if_neg hg]
      constructor
      · rintro (hm | ⟨x, hx, hgx, hmx⟩)
        · exact .inl hm
        · exact .inr ⟨x, List.mem_cons_of_mem pr hx, hgx, hmx⟩
      · rintro (hm | ⟨x, hx, hgx, hmx⟩)
        · exact .inl hm
        · rcases List.mem_cons.1 hx with rfl | hx
          · exact absurd hgx hg
          · exact .inr ⟨x, hx, hgx, hmx⟩

theorem mem_edges_edge_fold (fg : FileGraph) (calls : List (String × String))
    (G : Graph) (e : String × String) :
    e ∈ (calls.foldl
      (fun G pr =>
        if pr.1 ∈ fg.functions ∧ pr.2 ∈ fg.functions then G.addEdge pr.1 pr.2 else G)
      G).edges ↔
      e ∈ G.edges ∨
        ∃ pr ∈ calls, (pr.1 ∈ fg.functions ∧ pr.2 ∈ fg.functions) ∧ e = pr := by
  induction calls generalizing G with
  | nil => simp
  | cons pr rest ih =>
    rw [List.foldl_cons, ih]
    by_cases hg : pr.1 ∈ fg.functions ∧ pr.2 ∈ fg.functions
    · rw [if_pos hg, mem_edges_addEdge]
      constructor
      · rintro ((hm | hm) | ⟨x, hx, hgx, hex⟩)
        · exact .inl hm
        · exact .inr ⟨pr, List.mem_cons_self pr rest, hg, by rw [hm]⟩
        · exact .inr ⟨x, List.mem_cons_of_mem pr hx, hgx, hex⟩
      · rintro (hm | ⟨x, hx, hgx, hex⟩)
        · exact .inl (.inl hm)
        · rcases List.mem_cons.1 hx with rfl | hx
          · exact .inl (.inr (by rw [hex]))
          · exact .inr ⟨x, hx, hgx, hex⟩
    · rw [if_neg hg]
      constructor
      · rintro (hm | ⟨x, hx, hgx, hex⟩)
        · exact .inl hm
        · exact .inr ⟨x, List.mem_cons_of_mem pr hx, hgx, hex⟩
      · rintro (hm | ⟨x, hx, hgx, hex⟩)
        · exact .inl hm
        · rcases List.mem_cons.1 hx with rfl | hx
          · exact absurd hgx hg
          · exact .inr ⟨x, hx, hgx, hex⟩

theorem hasNode_mergeFile (G : Graph) (fg : FileGraph) (m : String) :
    (mergeFile G fg).hasNode m = true ↔ G.hasNode m = true ∨ m ∈ fg.functions := by
  simp only [mergeFile]
  rw [hasNode_edge_fold, hasNode_node_fold]
  constructor
  · rintro ((hm | hm) | ⟨pr, _, hg, (rfl | rfl)⟩)
    · exact .inl hm
    · exact .inr hm
    · exact .inr hg.1
    · exact .inr hg.2
  · rintro (hm | hm)
    · exact .inl (.inl hm)
    · exact .inl (.inr hm)

theorem mem_edges_mergeFile (G : Graph) (fg : FileGraph) (e : String × String) :
    e ∈ (mergeFile G fg).edges ↔
      e ∈ G.edges ∨ (e ∈ fg.calls ∧ e.1 ∈ fg.functions ∧ e.2 ∈ fg.functions) := by
  simp only [mergeFile]
  rw [mem_edges_edge_fold, edges_node_fold]
  constructor
  · rintro (hm | ⟨x, hx, hgx, rfl⟩)
    · exact .inl hm
    · exact .inr ⟨hx, hgx⟩
  · rintro (hm | ⟨hx, hgx⟩)
    · exact .inl hm
    · exact .inr ⟨e, hx, hgx, rfl⟩

theorem hasNode_merge_fold (l : List FileGraph) (G : Graph) (m : String) :
    (l.foldl mergeFile G).hasNode m = true ↔
      G.hasNode m = true ∨ ∃ fg ∈ l, m ∈ fg.functions := by
  induction l generalizing G with
  | nil => simp
  | cons fg rest ih =>
    rw [List.foldl_cons, ih, hasNode_mergeFile]
    constructor
    · rintro ((hm | hm) | ⟨x, hx, hmx⟩)
      · exact .inl hm
      · exact .inr ⟨fg, List.mem_cons_self fg rest, hm⟩
      · exact .inr ⟨x, List.mem_cons_of_mem fg hx, hmx⟩
    · rintro (hm | ⟨x, hx, hmx⟩)
      · exact .inl (.inl hm)
      · rcases List.mem_cons.1 hx with rfl | hx
        · exact .inl (.inr hmx)
        · exact .inr ⟨x, hx, hmx⟩

theorem mem_edges_merge_fold (l : List FileGraph) (G : Graph) (e : String × String) :
    e ∈ (l.foldl mergeFile G).edges ↔
      e ∈ G.edges ∨
        ∃ fg ∈ l, e ∈ fg.calls ∧ e.1 ∈ fg.functions ∧ e.2 ∈ fg.functions := by
  induction l generalizing G with
  | nil => simp
  | cons fg rest ih =>
    rw [List.foldl_cons, ih, mem_edges_mergeFile]
    constructor
    · rintro ((hm | hm) | ⟨x, hx, hmx⟩)
      · exact .inl hm
      · exact .inr ⟨fg, List.mem_cons_self fg rest, hm⟩
      · exact .inr ⟨x, List.mem_cons_of_mem fg hx, hmx⟩
    · rintro (hm | ⟨x, hx, hmx⟩)
      · exact .inl (.inl hm)
      · rcases List.mem_cons.1 hx with rfl | hx
        · exact .inl (.inr hmx)
        · exact .inr ⟨x, hx, hmx⟩

/-- The node set of the combined graph is the union of the files' function
name sets. -/
theorem hasNode_mergeFiles (l : List FileGraph) (m : String) :
    (mergeFiles l).hasNode m = true ↔ ∃ fg ∈ l, m ∈ fg.functions := by
  rw [mergeFiles, hasNode_merge_fold]
  simp [Graph.empty, Graph.hasNode]

/-- The edge set of the combined graph is the union of the files'
qualifying call pairs. -/
theorem mem_edges_mergeFiles (l : List FileGraph) (e : String × String) :
    e ∈ (mergeFiles l).edges ↔
      ∃ fg ∈ l, e ∈ fg.calls ∧ e.1 ∈ fg.functions ∧ e.2 ∈ fg.functions := by
  rw [mergeFiles, mem_edges_merge_fold]
  simp [Graph.empty]

/-- Two graphs agree as node/edge *sets* (ignoring insertion order and node
metadata). -/
def Graph.sameSets (G₁ G₂ : Graph) : Prop :=
  (∀ n, G₁.hasNode n = true ↔ G₂.hasNode n = true) ∧
    (∀ e, e ∈ G₁.edges ↔ e ∈ G₂.edges)

/-- C4: merging per-file graphs into the combined graph is idempotent and
commutative at the level of node and edge sets: folding the same per-file
graph in twice gives the same node/edge sets as folding it once, and folding
any permutation of a list of per-file graphs gives the same node/edge sets. -/
theorem C4_merge_idempotent_commutative :
    (∀ fg : FileGraph, (mergeFiles [fg, fg]).sameSets (mergeFiles [fg])) ∧
      ∀ l₁ l₂ : List FileGraph, l₁.Perm l₂ →
        (mergeFiles l₁).sameSets (mergeFiles l₂) := by
  constructor
  · intro fg
    constructor
    · intro n
      rw [hasNode_mergeFiles, hasNode_mergeFiles]
      constructor
      · rintro ⟨x, hx, hmx⟩
        rcases List.mem_cons.1 hx with rfl | hx
        · exact ⟨x, List.mem_cons_self x [], hmx⟩
        · exact ⟨x, hx, hmx⟩
      · rintro ⟨x, hx, hmx⟩
        exact ⟨x, List.mem_cons_of_mem fg hx, hmx⟩
    · intro e
      rw [mem_edges_mergeFiles, mem_edges_mergeFiles]
      constructor
      · rintro ⟨x, hx, hmx⟩
        rcases List.mem_cons.1 hx with rfl | hx
        · exact ⟨x, List.mem_cons_self x [], hmx⟩
        · exact ⟨x, hx, hmx⟩
      · rintro ⟨x, hx, hmx⟩
        exact ⟨x, List.mem_cons_of_mem fg hx, hmx⟩
  · intro l₁ l₂ hperm
    constructor
    · intro n
      rw [hasNode_mergeFiles, hasNode_mergeFiles]
      constructor
      · rintro ⟨x, hx, hmx⟩
        exact ⟨x, hperm.mem_iff.1 hx, hmx⟩
      · rintro ⟨x, hx, hmx⟩
        exact ⟨x, hperm.mem_iff.2 hx, hmx⟩
    · intro e
      rw [mem_edges_mergeFiles, mem_edges_mergeFiles]
      constructor
      · rintro ⟨x, hx, hmx⟩
        exact ⟨x, hperm.mem_iff.1 hx, hmx⟩
      · rintro ⟨x, hx, hmx⟩
        exact ⟨x, hperm.mem_iff.2 hx, hmx⟩

/-- Concrete per-file graphs used by the merger witnesses below:
`a.py` defines `f`; `b.py` defines `f` and `g`, with a call pair `(f, g)`. -/
def fgA : FileGraph := ⟨"a.py", ["f"], []⟩

def fgB : FileGraph := ⟨"b.py", ["f", "g"], [("f", "g")]⟩

/-- Witness for C4 at the concrete per-file graphs `fgA` and `fgB`. -/
theorem C4_merge_idempotent_commutative_witness :
    (mergeFiles [fgA, fgA]).sameSets (mergeFiles [fgA]) ∧
      (mergeFiles [fgA, fgB]).sameSets (mergeFiles [fgB, fgA]) :=
  ⟨C4_merge_idempotent_commutative.1 fgA,
    C4_merge_idempotent_commutative.2 [fgA, fgB] [fgB, fgA]
      (List.Perm.swap fgB fgA [])⟩

/-! ### Node metadata under merging (claim C5) -/

theorem lookup_cons_ne {β : Type} (p : String × β) (l : List (String × β))
    (m : String) (h : m ≠ p.1) : (p :: l).lookup m = l.lookup m := by
  obtain ⟨k, b⟩ := p
  rw [List.lookup_cons, beq_eq_false_iff_ne.2 h]

theorem lookup_replace_self (l : List (String × Option NodeData)) (n : String)
    (d : NodeData) (h : l.any (fun p => p.1 == n) = true) :
    (l.map (fun p => if p.1 == n then (p.1, some d) else p)).lookup n = some (some d) := by
  induction l with
  | nil => simp at h
  | cons p rest ih =>
    obtain ⟨k, b⟩ := p
    simp only [List.any_cons, Bool.or_eq_true] at h
    rw [List.map_cons]
    by_cases hp : (k == n) = true
    · have hn : n = k := (beq_iff_eq.1 hp).symm
      subst hn
      simp
    · rw [if_neg hp]
      have hne : n ≠ k := fun he => hp (beq_iff_eq.2 he.symm)
      rw [List.lookup_cons, beq_eq_false_iff_ne.2 hne]
      exact ih (h.resolve_left hp)

theorem lookup_replace_ne (l : List (String × Option NodeData)) (n : String)
    (d : NodeData) (m : String) (hmn : m ≠ n) :
    (l.map (fun p => if p.1 == n then (p.1, some d) else p)).lookup m = l.lookup m := by
  induction l with
  | nil => rfl
  | cons p rest ih =>
    obtain ⟨k, b⟩ := p
    rw [List.map_cons]
    by_cases hm : m = k
    · subst hm
      rw [if_neg (by simpa using hmn)]
      rw [List.lookup_cons_self, List.lookup_cons_self]
    · by_cases hp : (k == n) = true
      · rw [if_pos hp]
        rw [List.lookup_cons, beq_eq_false_iff_ne.2 hm,
          List.lookup_cons, beq_eq_false_iff_ne.2 hm]
        exact ih
      · rw [if_neg hp]
        rw [List.lookup_cons, beq_eq_false_iff_ne.2 hm,
          List.lookup_cons, beq_eq_false_iff_ne.2 hm]
        exact ih

theorem lookup_of_not_any (l : List (String × Option NodeData)) (n : String)
    (h : l.any (fun p => p.1 == n) = false) : l.lookup n = none := by
  rw [List.lookup_eq_none_iff]
  intro p hp
  have hne := (List.any_eq_false.1 h) p hp
  exact bne_iff_ne.2 fun he => hne (beq_iff_eq.2 he.symm)

theorem lookup_append_of_none {β : Type} (l l' : List (String × β)) (n : String)
    (h : l.lookup n = none) : (l ++ l').lookup n = l'.lookup n := by
  induction l with
  | nil => rfl
  | cons p rest ih =>
    obtain ⟨k, b⟩ := p
    by_cases hm : n = k
    · subst hm
      rw [List.lookup_cons_self] at h
      simp at h
    · rw [List.cons_append, List.lookup_cons, beq_eq_false_iff_ne.2 hm]
      rw [List.lookup_cons, beq_eq_false_iff_ne.2 hm] at h
      exact ih h

theorem lookup_append_of_some {β : Type} (l l' : List (String × β)) (m : String)
    (v : β) (h : l.lookup m = some v) : (l ++ l').lookup m = some v := by
  induction l with
  | nil => simp at h
  | cons p rest ih =>
    obtain ⟨k, b⟩ := p
    by_cases hm : m = k
    · subst hm
      rw [List.lookup_cons_self] at h
      rw [List.cons_append, List.lookup_cons_self]
      exact h
    · rw [List.cons_append, List.lookup_cons, beq_eq_false_iff_ne.2 hm]
      rw [List.lookup_cons, beq_eq_false_iff_ne.2 hm] at h
      exact ih h

theorem not_any_of_not_hasNode (G : Graph) (n : String)
    (h : ¬ G.hasNode n = true) : G.nodes.any (fun p => p.1 == n) = false := by
  unfold Graph.hasNode at h
  rw [← Bool.not_eq_true]
  exact h

theorem getData_addNode_self (G : Graph) (n : String) (d : NodeData) :
    (G.addNode n d).getData n = some d := by
  unfold Graph.addNode Graph.getData
  split_ifs with h
  · rw [lookup_replace_self _ _ _ h]
    rfl
  · have hnone : G.nodes.lookup n = none :=
      lookup_of_not_any _ _ (not_any_of_not_hasNode G n h)
    show ((G.nodes ++ [(n, some d)]).lookup n).join = some d
    rw [lookup_append_of_none _ _ _ hnone, List.lookup_cons_self]
    rfl

theorem getData_addNode_ne (G : Graph) (n : String) (d : NodeData) (m : String)
    (hmn : m ≠ n) : (G.addNode n d).getData m = G.getData m := by
  unfold Graph.addNode Graph.getData
  split_ifs with h
  · show ((G.nodes.map fun p => if p.1 == n then (p.1, some d) else p).lookup m).join =
      (G.nodes.lookup m).join
    rw [lookup_replace_ne _ _ _ _ hmn]
  · show ((G.nodes ++ [(n, some d)]).lookup m).join = (G.nodes.lookup m).join
    cases hl : G.nodes.lookup m with
    | none =>
      rw [lookup_append_of_none _ _ _ hl, List.lookup_cons, beq_eq_false_iff_ne.2 hmn]
      rfl
    | some v => rw [lookup_append_of_some _ _ _ _ hl]

theorem getData_ensureNode (G : Graph) (n m : String) :
    (G.ensureNode n).getData m = G.getData m := by
  unfold Graph.ensureNode Graph.getData
  split_ifs with h
  · rfl
  · show ((G.nodes ++ [(n, none)]).lookup m).join = (G.nodes.lookup m).join
    cases hl : G.nodes.lookup m with
    | none =>
      rw [lookup_append_of_none _ _ _ hl]
      by_cases hm : m = n
      · subst hm
        rw [List.lookup_cons_self]
        rfl
      · rw [List.lookup_cons, beq_eq_false_iff_ne.2 hm]
        rfl
    | some v => rw [lookup_append_of_some _ _ _ _ hl]

theorem getData_addEdge (G : Graph) (a b m : String) :
    (G.addEdge a b).getData m = G.getData m := by
  simp only [Graph.addEdge]
  have hdata : ∀ (H : Graph) (es : List (String × String)),
      ({ H with edges := es } : Graph).getData m = H.getData m := fun _ _ => rfl
  split_ifs with h
  · rw [getData_ensureNode, getData_ensureNode]
  · rw [hdata, getData_ensureNode, getData_ensureNode]

theorem getData_edge_fold (fg : FileGraph) (calls : List (String × String))
    (G : Graph) (m : String) :
    (calls.foldl
      (fun G pr =>
        if pr.1 ∈ fg.functions ∧ pr.2 ∈ fg.functions then G.addEdge pr.1 pr.2 else G)
      G).getData m = G.getData m := by
  induction calls generalizing G with
  | nil => rfl
  | cons pr rest ih =>
    rw [List.foldl_cons, ih]
    split_ifs with hg
    · rw [getData_addEdge]
    · rfl

theorem getData_node_fold_not_mem (fg : FileGraph) (l : List String) (G : Graph)
    (m : String) (hm : m ∉ l) :
    (l.foldl (fun G func => G.addNode func (fileNodeData fg func)) G).getData m =
      G.getData m := by
  induction l generalizing G with
  | nil => rfl
  | cons x xs ih =>
    rw [List.foldl_cons, ih _ (fun h => hm (List.mem_cons_of_mem x h))]
    exact getData_addNode_ne G x _ m (fun h => hm (h ▸ List.mem_cons_self x xs))

theorem getData_node_fold_mem (fg : FileGraph) (l : List String) (G : Graph)
    (m : String) (hm : m ∈ l) :
    (l.foldl (fun G func => G.addNode func (fileNodeData fg func)) G).getData m =
      some (fileNodeData fg m) := by
  induction l generalizing G with
  | nil => cases hm
  | cons x xs ih =>
    rw [List.foldl_cons]
    by_cases hxs : m ∈ xs
    · exact ih _ hxs
    · rcases List.mem_cons.1 hm with rfl | hmem
      · rw [getData_node_fold_not_mem fg xs _ m hxs]
        exact getData_addNode_self G m _
      · exact absurd hmem hxs

/-- C5 (amended): *last*-seen node metadata wins.  After folding a per-file
graph into the combined graph, every function of that file carries that
file's display/group metadata — a later insertion of an existing node key
*overwrites* the stored metadata (networkx `add_node` updates the attribute
record of an existing node). -/
theorem C5_amended_last_insertion_wins (G : Graph) (fg : FileGraph) (n : String)
    (h : n ∈ fg.functions) :
    (mergeFile G fg).getData n = some (fileNodeData fg n) := by
  simp only [mergeFile]
  rw [getData_edge_fold]
  exact getData_node_fold_mem fg fg.functions G n h

/-- Counterexample to C5 as stated: `a.py` and `b.py` both define `f`.
After merging `a.py` the stored metadata of node `f` is
`(f, a.py:f, a.py)`; after then merging `b.py` the stored metadata has
*changed* to `(f, b.py:f, b.py)` — the later insertion does not leave the
first-seen display/group metadata intact. -/
theorem C5_counterexample :
    (mergeFiles [fgA]).getData "f" = some ⟨"f", "a.py:f", "a.py"⟩ ∧
      (mergeFiles [fgA, fgB]).getData "f" = some ⟨"f", "b.py:f", "b.py"⟩ ∧
      (⟨"f", "b.py:f", "b.py"⟩ : NodeData) ≠ ⟨"f", "a.py:f", "a.py"⟩ := by
  refine ⟨by decide, by decide, by decide⟩

/-- Witness for the amended C5 at concrete inputs: merging `b.py` into the
graph that already holds `a.py`'s metadata for `f` leaves `f` carrying
`b.py`'s metadata. -/
theorem C5_amended_last_insertion_wins_witness :
    (mergeFile (mergeFiles [fgA]) fgB).getData "f" = some (fileNodeData fgB "f") :=
  C5_amended_last_insertion_wins (mergeFiles [fgA]) fgB "f" (by decide)

/-! ### Node identity in the fallback analysis (claim C9) -/

/-- How many stored nodes carry the key `k`. -/
def Graph.KeyCount (G : Graph) (k : String) : Nat :=
  G.nodes.countP (fun p => p.1 == k)

theorem hasNode_iff_keyCount_pos (G : Graph) (k : String) :
    G.hasNode k = true ↔ 0 < G.KeyCount k := by
  unfold Graph.hasNode Graph.KeyCount
  rw [List.any_eq_true, List.countP_pos_iff]

theorem keyCount_addNode_of_hasNode (G : Graph) (n : String) (d : NodeData)
    (k : String) (h : G.hasNode n = true) :
    (G.addNode n d).KeyCount k = G.KeyCount k := by
  unfold Graph.addNode Graph.KeyCount
  rw [if_pos h]
  show (G.nodes.map fun p => if p.1 == n then (p.1, some d) else p).countP _ = _
  rw [List.countP_map]
  apply List.countP_congr
  intro p _
  by_cases hp : (p.1 == n) = true <;> simp [Function.comp, hp]

theorem keyCount_addNode_not_hasNode (G : Graph) (n : String) (d : NodeData)
    (k : String) (h : ¬ G.hasNode n = true) :
    (G.addNode n d).KeyCount k = G.KeyCount k + (if (n == k) = true then 1 else 0) := by
  unfold Graph.addNode Graph.KeyCount
  rw [if_neg h]
  show (G.nodes ++ [(n, some d)]).countP _ = _
  rw [List.countP_append]
  congr 1
  by_cases hk : (n == k) = true <;> simp [hk]

theorem keyCount_ensureNode (G : Graph) (n : String) (k : String) :
    (G.ensureNode n).KeyCount k =
      G.KeyCount k +
        (if ¬ G.hasNode n = true ∧ (n == k) = true then 1 else 0) := by
  unfold Graph.ensureNode Graph.KeyCount
  by_cases h1 : G.hasNode n = true
  · rw [if_pos h1, if_neg (fun hc => hc.1 h1)]
    omega
  · rw [if_neg h1]
    show (G.nodes ++ [(n, none)]).countP _ = _
    rw [List.countP_append]
    congr 1
    by_cases hk : (n == k) = true
    · rw [if_pos ⟨h1, hk⟩]
      simp [hk]
    · rw [if_neg (fun hc => hk hc.2)]
      simp [hk]

/-- Every key occurs at most once among the stored nodes. -/
def Graph.AtMostOnce (G : Graph) : Prop := ∀ k, G.KeyCount k ≤ 1

theorem atMostOnce_addNode (G : Graph) (n : String) (d : NodeData)
    (h : G.AtMostOnce) : (G.addNode n d).AtMostOnce := by
  intro k
  by_cases hn : G.hasNode n = true
  · rw [keyCount_addNode_of_hasNode G n d k hn]
    exact h k
  · rw [keyCount_addNode_not_hasNode G n d k hn]
    by_cases hk : (n == k) = true
    · rw [if_pos hk]
      have hkn : n = k := beq_iff_eq.1 hk
      subst hkn
      have hzero : G.KeyCount n = 0 := by
        by_contra hc
        exact hn ((hasNode_iff_keyCount_pos G n).2 (Nat.pos_of_ne_zero hc))
      omega
    · rw [if_neg hk]
      simpa using h k

theorem atMostOnce_ensureNode (G : Graph) (n : String)
    (h : G.AtMostOnce) : (G.ensureNode n).AtMostOnce := by
  intro k
  rw [keyCount_ensureNode]
  split_ifs with hc
  · have hkn : n = k := beq_iff_eq.1 hc.2
    subst hkn
    have hzero : G.KeyCount n = 0 := by
      by_contra hz
      exact hc.1 ((hasNode_iff_keyCount_pos G n).2 (Nat.pos_of_ne_zero hz))
    omega
  · simpa using h k

theorem atMostOnce_addEdge (G : Graph) (a b : String)
    (h : G.AtMostOnce) : (G.addEdge a b).AtMostOnce := by
  have h2 := atMostOnce_ensureNode _ b (atMostOnce_ensureNode G a h)
  intro k
  have hk := h2 k
  simp only [Graph.addEdge]
  split_ifs with hc
  · exact hk
  · exact hk

theorem atMostOnce_node_fold (fg : FileGraph) (l : List String) (G : Graph)
    (h : G.AtMostOnce) :
    (l.foldl (fun G func => G.addNode func (fileNodeData fg func)) G).AtMostOnce := by
  induction l generalizing G with
  | nil => exact h
  | cons x xs ih =>
    rw [List.foldl_cons]
    exact ih _ (atMostOnce_addNode G x _ h)

theorem atMostOnce_edge_fold (fg : FileGraph) (calls : List (String × String))
    (G : Graph) (h : G.AtMostOnce) :
    (calls.foldl
      (fun G pr =>
        if pr.1 ∈ fg.functions ∧ pr.2 ∈ fg.functions then G.addEdge pr.1 pr.2 else G)
      G).AtMostOnce := by
  induction calls generalizing G with
  | nil => exact h
  | cons pr rest ih =>
    rw [List.foldl_cons]
    refine ih _ ?_
    split_ifs with hg
    · exact atMostOnce_addEdge G pr.1 pr.2 h
    · exact h

theorem atMostOnce_mergeFile (G : Graph) (fg : FileGraph)
    (h : G.AtMostOnce) : (mergeFile G fg).AtMostOnce := by
  simp only [mergeFile]
  exact atMostOnce_edge_fold fg fg.calls _ (atMostOnce_node_fold fg fg.functions G h)

theorem atMostOnce_merge_fold (l : List FileGraph) (G : Graph)
    (h : G.AtMostOnce) : (l.foldl mergeFile G).AtMostOnce := by
  induction l generalizing G with
  | nil => exact h
  | cons fg rest ih =>
    rw [List.foldl_cons]
    exact ih _ (atMostOnce_mergeFile G fg h)

theorem atMostOnce_mergeFiles (l : List FileGraph) : (mergeFiles l).AtMostOnce := by
  rw [mergeFiles]
  refine atMostOnce_merge_fold l Graph.empty ?_
  intro k
  simp [Graph.KeyCount, Graph.empty]

/-- C9: in the fallback structural analysis the combined function graph keys
nodes by the *unqualified short* function name: if two files each define a
top-level function named `n`, the combined graph holds exactly one node
keyed `n` (shared by both files), and that node carries a single group/title
metadata record — the one stored by the later of the two insertions. -/
theorem C9_fallback_nodes_keyed_by_short_name (fg1 fg2 : FileGraph) (n : String)
    (h1 : n ∈ fg1.functions) (h2 : n ∈ fg2.functions) :
    (mergeFiles [fg1, fg2]).hasNode n = true ∧
      (mergeFiles [fg1, fg2]).KeyCount n = 1 ∧
      (mergeFiles [fg1, fg2]).getData n = some (fileNodeData fg2 n) := by
  have hn : (mergeFiles [fg1, fg2]).hasNode n = true :=
    (hasNode_mergeFiles _ _).2 ⟨fg1, List.mem_cons_self fg1 [fg2], h1⟩
  refine ⟨hn, ?_, ?_⟩
  · have hle := atMostOnce_mergeFiles [fg1, fg2] n
    have hpos := (hasNode_iff_keyCount_pos _ _).1 hn
    omega
  · show (mergeFile (mergeFile Graph.empty fg1) fg2).getData n = _
    simp only [mergeFile]
    rw [getData_edge_fold]
    exact getData_node_fold_mem fg2 fg2.functions _ n h2

/-- Witness for C9: `a.py` and `b.py` both define a top-level `f`; the
combined graph holds a single node `f`. -/
theorem C9_fallback_nodes_keyed_by_short_name_witness :
    (mergeFiles [fgA, fgB]).hasNode "f" = true ∧
      (mergeFiles [fgA, fgB]).KeyCount "f" = 1 ∧
      (mergeFiles [fgA, fgB]).getData "f" = some (fileNodeData fgB "f") :=
  C9_fallback_nodes_keyed_by_short_name fgA fgB "f" (by decide) (by decide)

/-! ### Signature/source extractor (`extract_functions.py`)

`extract_functions` walks the syntax tree with `ast.walk` — a *breadth-first*
traversal (a queue seeded with the root; each popped node is yielded and its
children appended) — and emits a `(signature, source)` record for every node
that is an `ast.FunctionDef`.  `ast.AsyncFunctionDef` is a distinct class,
not a subclass of `ast.FunctionDef`, so `async def` definitions fail the
`isinstance` test.  The embedding keeps the statements the walk can
meaningfully visit: plain function definitions, `async` function
definitions, class definitions (each with their body statements and
1-indexed inclusive `lineno`/`end_lineno` spans), and a catch-all for every
other statement kind (whose child statements contain no function definitions
relevant to the claims; Python compound statements other than these carry
bodies too, but a nested `def` inside them is handled identically to the
`classDef` case, which stands in for every body-carrying non-`def`
statement). -/

/-- The fields of `ast.arguments` that `extract_functions` reads
(lines 30-40): positional `args`, `vararg`, `kwonlyargs`, `kwarg`. -/
structure Args where
  args : List String
  vararg : Option String
  kwonlyargs : List String
  kwarg : Option String
deriving DecidableEq, Repr

inductive Stmt where
  | funcDef (name : String) (args : Args) (lineno : Nat) (end_lineno : Nat)
      (body : List Stmt)
  | asyncFuncDef (name : String) (args : Args) (lineno : Nat) (end_lineno : Nat)
      (body : List Stmt)
  | classDef (name : String) (lineno : Nat) (end_lineno : Nat) (body : List Stmt)
  | other

/-- The child statements `ast.iter_child_nodes` yields (restricted to
statements; parameter and expression children contain no `FunctionDef`). -/
def Stmt.children : Stmt → List Stmt
  | .funcDef _ _ _ _ b => b
  | .asyncFuncDef _ _ _ _ b => b
  | .classDef _ _ _ b => b
  | .other => []

mutual
def Stmt.nodeCount : Stmt → Nat
  | .funcDef _ _ _ _ b => 1 + nodeCountList b
  | .asyncFuncDef _ _ _ _ b => 1 + nodeCountList b
  | .classDef _ _ _ b => 1 + nodeCountList b
  | .other => 1
def nodeCountList : List Stmt → Nat
  | [] => 0
  | s :: rest => Stmt.nodeCount s + nodeCountList rest
end

theorem nodeCountList_append (l₁ l₂ : List Stmt) :
    nodeCountList (l₁ ++ l₂) = nodeCountList l₁ + nodeCountList l₂ := by
  induction l₁ with
  | nil => simp [nodeCountList]
  | cons s rest ih =>
    simp [nodeCountList, ih]
    omega

theorem nodeCount_eq (s : Stmt) : s.nodeCount = 1 + nodeCountList s.children := by
  cases s <;> rfl

/-- `ast.walk`: breadth-first traversal of the forest via a queue; each
dequeued statement is yielded and its children are enqueued. -/
def walkAux : List Stmt → List Stmt
  | [] => []
  | s :: rest => s :: walkAux (rest ++ s.children)
termination_by l => nodeCountList l
decreasing_by
  simp only [nodeCountList_append, nodeCountList]
  have := nodeCount_eq s
  omega

/-- `ast.walk(tree)` restricted to the statement nodes (the `Module` root is
yielded first by the real `ast.walk` but is not a `FunctionDef`, so dropping
it changes no record). -/
def walk (tree : List Stmt) : List Stmt := walkAux tree

mutual
def Stmt.flatten : Stmt → List Stmt
  | .funcDef n a x y b => .funcDef n a x y b :: flattenList b
  | .asyncFuncDef n a x y b => .asyncFuncDef n a x y b :: flattenList b
  | .classDef n x y b => .classDef n x y b :: flattenList b
  | .other => [.other]
def flattenList : List Stmt → List Stmt
  | [] => []
  | s :: rest => s.flatten ++ flattenList rest
end

theorem flatten_eq (s : Stmt) : s.flatten = s :: flattenList s.children := by
  cases s <;> rfl

theorem flattenList_append (l₁ l₂ : List Stmt) :
    flattenList (l₁ ++ l₂) = flattenList l₁ ++ flattenList l₂ := by
  induction l₁ with
  | nil => rfl
  | cons s rest ih => simp [flattenList, ih]

/-- The breadth-first walk visits exactly the statements of the forest (in a
different order than a depth-first flattening). -/
theorem walkAux_perm (l : List Stmt) : (walkAux l).Perm (flattenList l) := by
  induction l using walkAux.induct with
  | case1 => simp [walkAux, flattenList]
  | case2 s rest ih =>
    rw [walkAux]
    refine (ih.cons s).trans ?_
    rw [flattenList_append, flattenList, flatten_eq, List.cons_append]
    exact (List.perm_append_comm).cons s

/-- Lines 27-42 of `extract_functions.py`: `arg_names` is built by appending
the positional names, then `'*' + vararg` if present, then each keyword-only
name with `'=?'` appended, then `'**' + kwarg` if present; the signature is
`f"{func_name}({', '.join(arg_names)})"`. -/
def function_signature (func_name : String) (a : Args) : String :=
  let arg_names : List String := []
  let arg_names := arg_names ++ a.args
  let arg_names :=
    match a.vararg with
    | some v => arg_names ++ ["*" ++ v]
    | none => arg_names
  let arg_names := arg_names ++ a.kwonlyargs.map (fun arg => arg ++ "=?")
  let arg_names :=
    match a.kwarg with
    | some k => arg_names ++ ["**" ++ k]
    | none => arg_names
  func_name ++ "(" ++ String.intercalate ", " arg_names ++ ")"

/-- The signature string as claim C6 words it: the short name followed by,
in parentheses, the comma-separated concatenation of the positional names in
declaration order, the variadic-positional name prefixed with `*` if
present, the keyword-only names each suffixed with `=?`, and the
variadic-keyword name prefixed with `**` if present. -/
def signatureSpec (name : String) (a : Args) : String :=
  name ++ "(" ++
    String.intercalate ", "
      (a.args ++ (a.vararg.map (fun v => "*" ++ v)).toList ++
        a.kwonlyargs.map (fun k => k ++ "=?") ++
        (a.kwarg.map (fun k => "**" ++ k)).toList) ++ ")"

/-- Python list slice `source_lines[start:fin]` (0-based, end-exclusive). -/
def pySlice (l : List String) (start fin : Nat) : List String :=
  (l.drop start).take (fin - start)

/-- Lines 44-51: for an `ast.FunctionDef` node, the emitted row — signature
and `"".join(source_lines[lineno - 1 : end_lineno])`; for any other node
kind, no row. -/
def recordOf (source_lines : List String) : Stmt → Option (String × String)
  | .funcDef name a lineno end_lineno _ =>
    some (function_signature name a,
      String.join (pySlice source_lines (lineno - 1) end_lineno))
  | _ => none

/-- `extract_functions` (extract_functions.py lines 8-51), minus the I/O:
the rows written to the CSV, in emission order. -/
def extract_functions (tree : List Stmt) (source_lines : List String) :
    List (String × String) :=
  (walk tree).filterMap (recordOf source_lines)

mutual
/-- The rows of a statement and its nested statements, collected
structurally (document order): one row per plain `def`, none for an
`async def` or a `class` statement itself. -/
def Stmt.collectRecords (src : List String) : Stmt → List (String × String)
  | .funcDef n a ln eln b =>
    (function_signature n a, String.join (pySlice src (ln - 1) eln)) ::
      collectRecordsList src b
  | .asyncFuncDef _ _ _ _ b => collectRecordsList src b
  | .classDef _ _ _ b => collectRecordsList src b
  | .other => []
def collectRecordsList (src : List String) : List Stmt → List (String × String)
  | [] => []
  | s :: rest => s.collectRecords src ++ collectRecordsList src rest
end

theorem collect_eq_aux (src : List String) (N : Nat) :
    ∀ l : List Stmt, nodeCountList l ≤ N →
      (flattenList l).filterMap (recordOf src) = collectRecordsList src l := by
  induction N with
  | zero =>
    intro l hl
    cases l with
    | nil => rfl
    | cons s rest =>
      have := nodeCount_eq s
      simp [nodeCountList] at hl
      omega
  | succ N ihN =>
    intro l hl
    cases l with
    | nil => rfl
    | cons s rest =>
      have hcount : s.nodeCount + nodeCountList rest ≤ N + 1 := hl
      have hone : 1 ≤ s.nodeCount := by rw [nodeCount_eq]; omega
      rw [flattenList, List.filterMap_append, collectRecordsList]
      have hchild : nodeCountList s.children ≤ N := by
        have := nodeCount_eq s
        omega
      have hs : (s.flatten).filterMap (recordOf src) = s.collectRecords src := by
        rw [flatten_eq, List.filterMap_cons]
        cases s with
        | funcDef n a ln eln b =>
          simp only [recordOf, Stmt.children] at *
          rw [ihN b hchild]
          rfl
        | asyncFuncDef n a ln eln b =>
          simp only [recordOf, Stmt.children] at *
          rw [ihN b hchild]
          rfl
        | classDef n ln eln b =>
          simp only [recordOf, Stmt.children] at *
          rw [ihN b hchild]
          rfl
        | other => rfl
      rw [hs, ihN rest (by omega)]

theorem collect_eq (src : List String) (l : List Stmt) :
    (flattenList l).filterMap (recordOf src) = collectRecordsList src l :=
  collect_eq_aux src (nodeCountList l) l le_rfl

/-- C10: only plain `def` definitions produce rows: the rows of
`extract_functions` are, up to the breadth-first emission order, exactly one
row per `FunctionDef` of the tree (`collectRecordsList`), which assigns *no*
row to an `async def` statement itself (its plain-`def` children still get
theirs) — `ast.AsyncFunctionDef` is not an `ast.FunctionDef`. -/
theorem C10_async_def_emits_no_row (tree : List Stmt) (src : List String) :
    (extract_functions tree src).Perm (collectRecordsList src tree) := by
  unfold extract_functions walk
  exact ((walkAux_perm tree).filterMap (recordOf src)).trans
    (by rw [collect_eq])

/-- C6: the emitted signature string is the short name followed by, in
parentheses and comma-separated: the positional names in declaration order,
`*`+variadic-positional name if present, each keyword-only name suffixed
`=?`, and `**`+variadic-keyword name if present; in particular
`def outer(x, *args, k=1, **kw)` yields exactly `outer(x, *args, k=?, **kw)`. -/
theorem C6_signature_format :
    (∀ (name : String) (a : Args), function_signature name a = signatureSpec name a) ∧
      function_signature "outer" ⟨["x"], some "args", ["k"], some "kw"⟩ =
        "outer(x, *args, k=?, **kw)" := by
  constructor
  · intro name a
    obtain ⟨args, va, kws, kwa⟩ := a
    cases va <;> cases kwa <;>
      simp [function_signature, signatureSpec, Option.toList]
  · decide

/-- C7: every function definition occurring anywhere in the tree — nested
definitions included, each as its own record — yields the record whose
source text is exactly the file lines `lineno` through `end_lineno`
(1-indexed, inclusive, original line breaks preserved): the emitted slice
has `end_lineno − lineno + 1` lines, and its `i`-th line is line
`lineno + i` of the file. -/
theorem C7_span_and_verbatim_source (tree : List Stmt) (src : List String)
    (n : String) (a : Args) (ln eln : Nat) (body : List Stmt)
    (hocc : Stmt.funcDef n a ln eln body ∈ flattenList tree)
    (h1 : 1 ≤ ln) (h2 : ln ≤ eln) (h3 : eln ≤ src.length) :
    (function_signature n a, String.join (pySlice src (ln - 1) eln)) ∈
        extract_functions tree src ∧
      (pySlice src (ln - 1) eln).length = eln - ln + 1 ∧
      ∀ i, i < eln - ln + 1 → (pySlice src (ln - 1) eln)[i]? = src[ln - 1 + i]? := by
  refine ⟨?_, ?_, ?_⟩
  · unfold extract_functions walk
    rw [((walkAux_perm tree).filterMap (recordOf src)).mem_iff, List.mem_filterMap]
    exact ⟨Stmt.funcDef n a ln eln body, hocc, rfl⟩
  · unfold pySlice
    rw [List.length_take, List.length_drop]
    omega
  · intro i hi
    unfold pySlice
    rw [List.getElem?_take_of_lt (by omega), List.getElem?_drop]

/-- Witness for C7: a two-line nested function `g` on lines `[2, 3]` inside
`f` on lines `[1, 3]` of a three-line file is emitted as its own record with
exactly lines 2-3 of the file. -/
theorem C7_span_and_verbatim_source_witness :
    ((function_signature "g" ⟨[], none, [], none⟩,
        String.join (pySlice ["def f():\n", "  def g():\n", "    pass\n"] 1 3)) ∈
      extract_functions
        [Stmt.funcDef "f" ⟨[], none, [], none⟩ 1 3
          [Stmt.funcDef "g" ⟨[], none, [], none⟩ 2 3 []]]
        ["def f():\n", "  def g():\n", "    pass\n"] ∧
      (pySlice ["def f():\n", "  def g():\n", "    pass\n"] 1 3).length = 3 - 2 + 1 ∧
      ∀ i, i < 3 - 2 + 1 →
        (pySlice ["def f():\n", "  def g():\n", "    pass\n"] 1 3)[i]? =
          ["def f():\n", "  def g():\n", "    pass\n"][2 - 1 + i]?) :=
  C7_span_and_verbatim_source
    [Stmt.funcDef "f" ⟨[], none, [], none⟩ 1 3
      [Stmt.funcDef "g" ⟨[], none, [], none⟩ 2 3 []]]
    ["def f():\n", "  def g():\n", "    pass\n"] "g" ⟨[], none, [], none⟩ 2 3 []
    (by simp [flattenList, Stmt.flatten])
    (by omega) (by omega) (by simp)

/-- The start line of a record-producing node: `some lineno` for a
`FunctionDef`, `none` otherwise.  The emitted record sequence arises from
the same `filterMap` traversal, so `emittedLinenos` lists the start lines of
the emitted records in emission order. -/
def funcLineno : Stmt → Option Nat
  | .funcDef _ _ ln _ _ => some ln
  | _ => none

def emittedLinenos (tree : List Stmt) : List Nat :=
  (walk tree).filterMap funcLineno

/-- Counterexample to C8 as stated: for a file with `f` on lines [1,3]
containing nested `g` on lines [2,3], followed by top-level `h` on lines
[4,5], the records are emitted in breadth-first order `f, h, g` — start
lines `[1, 4, 2]` — which is not ordered by starting position (`g` at line 2
comes after `h` at line 4). -/
theorem C8_counterexample :
    emittedLinenos
        [Stmt.funcDef "f" ⟨[], none, [], none⟩ 1 3
          [Stmt.funcDef "g" ⟨[], none, [], none⟩ 2 3 []],
          Stmt.funcDef "h" ⟨[], none, [], none⟩ 4 5 []] = [1, 4, 2] ∧
      ¬ List.Pairwise (· ≤ ·)
        (emittedLinenos
          [Stmt.funcDef "f" ⟨[], none, [], none⟩ 1 3
            [Stmt.funcDef "g" ⟨[], none, [], none⟩ 2 3 []],
            Stmt.funcDef "h" ⟨[], none, [], none⟩ 4 5 []]) := by
  have h : emittedLinenos
      [Stmt.funcDef "f" ⟨[], none, [], none⟩ 1 3
        [Stmt.funcDef "g" ⟨[], none, [], none⟩ 2 3 []],
        Stmt.funcDef "h" ⟨[], none, [], none⟩ 4 5 []] = [1, 4, 2] := by
    simp [emittedLinenos, walk, walkAux, Stmt.children, funcLineno]
  refine ⟨h, ?_⟩
  rw [h]
  decide

mutual
def Stmt.hasFuncDef : Stmt → Bool
  | .funcDef _ _ _ _ _ => true
  | .asyncFuncDef _ _ _ _ b => hasFuncDefList b
  | .classDef _ _ _ b => hasFuncDefList b
  | .other => false
def hasFuncDefList : List Stmt → Bool
  | [] => false
  | s :: rest => s.hasFuncDef || hasFuncDefList rest
end

theorem hasFuncDefList_eq_any (l : List Stmt) :
    hasFuncDefList l = l.any Stmt.hasFuncDef := by
  induction l with
  | nil => rfl
  | cons s rest ih => simp [hasFuncDefList, ih]

theorem of_hasFuncDef_false (s : Stmt) (h : s.hasFuncDef = false) :
    funcLineno s = none ∧ hasFuncDefList s.children = false := by
  cases s with
  | funcDef n a ln eln b => simp [Stmt.hasFuncDef] at h
  | asyncFuncDef n a ln eln b =>
    exact ⟨rfl, by simpa [Stmt.hasFuncDef] using h⟩
  | classDef n ln eln b =>
    exact ⟨rfl, by simpa [Stmt.hasFuncDef] using h⟩
  | other => exact ⟨rfl, rfl⟩

/-- When no function definition sits strictly below top level, the
breadth-first walk emits exactly the top-level record-producing nodes, in
list (document) order. -/
theorem walk_filterMap_topLevel (l : List Stmt) :
    (∀ s ∈ l, hasFuncDefList s.children = false) →
      (walkAux l).filterMap funcLineno = l.filterMap funcLineno := by
  induction l using walkAux.induct with
  | case1 =>
    intro _
    rw [walkAux]
  | case2 s rest ih =>
    intro h
    rw [walkAux, List.filterMap_cons, List.filterMap_cons]
    have hchild : ∀ t ∈ s.children, t.hasFuncDef = false := by
      have hc := h s (List.mem_cons_self s rest)
      rw [hasFuncDefList_eq_any] at hc
      exact fun t ht => by
        rw [← Bool.not_eq_true]
        exact List.any_eq_false.1 hc t ht
    have hq : ∀ t ∈ rest ++ s.children, hasFuncDefList t.children = false := by
      intro t ht
      rcases List.mem_append.1 ht with ht | ht
      · exact h t (List.mem_cons_of_mem s ht)
      · exact (of_hasFuncDef_false t (hchild t ht)).2
    rw [ih hq, List.filterMap_append]
    have hnone : (s.children).filterMap funcLineno = [] :=
      List.filterMap_eq_nil_iff.2 fun t ht => (of_hasFuncDef_false t (hchild t ht)).1
    rw [hnone, List.append_nil]

/-- C8 (amended): the records are emitted in breadth-first order over the
syntax tree (all definitions of a nesting level before any deeper ones), not
in document order.  In the nesting-free case the two orders coincide: when
no function definition sits inside another statement, the emitted sequence
is exactly the top-level sequence, hence in document order whenever the
top-level statements are (their start lines weakly increase). -/
theorem C8_document_order_amended (tree : List Stmt)
    (hflat : ∀ s ∈ tree, hasFuncDefList s.children = false)
    (hsorted : List.Pairwise (· ≤ ·) (tree.filterMap funcLineno)) :
    emittedLinenos tree = tree.filterMap funcLineno ∧
      List.Pairwise (· ≤ ·) (emittedLinenos tree) := by
  have h : emittedLinenos tree = tree.filterMap funcLineno := by
    rw [emittedLinenos, walk]
    exact walk_filterMap_topLevel tree hflat
  exact ⟨h, h ▸ hsorted⟩

/-- Witness for the amended C8: a file with top-level `f` (line 1) and `h`
(line 4) and no nesting is emitted in document order `[1, 4]`. -/
theorem C8_document_order_amended_witness :
    emittedLinenos
        [Stmt.funcDef "f" ⟨[], none, [], none⟩ 1 2 [], Stmt.other,
          Stmt.funcDef "h" ⟨[], none, [], none⟩ 4 5 []] =
      [Stmt.funcDef "f" ⟨[], none, [], none⟩ 1 2 [], Stmt.other,
          Stmt.funcDef "h" ⟨[], none, [], none⟩ 4 5 []].filterMap funcLineno ∧
      List.Pairwise (· ≤ ·)
        (emittedLinenos
          [Stmt.funcDef "f" ⟨[], none, [], none⟩ 1 2 [], Stmt.other,
            Stmt.funcDef "h" ⟨[], none, [], none⟩ 4 5 []]) :=
  C8_document_order_amended
    [Stmt.funcDef "f" ⟨[], none, [], none⟩ 1 2 [], Stmt.other,
      Stmt.funcDef "h" ⟨[], none, [], none⟩ 4 5 []]
    (by decide) (by decide)

end CodeInsight
